import Mathlib

/-!
Shallow embedding of the core of `tmenu` (`src/main.rs`): the `.toon` menu
parser (`App::from_toon`) and the navigation state machine (`App::next`,
`App::previous`, `App::enter`, `App::back`).

Strings are modelled as `List Char` (the character content of a Rust
`String`).  `usize` arithmetic is `Nat`; the one place where Rust would
underflow (`len() - 1` with `len() == 0`, a panic under overflow checks) is
modelled by returning `none`.  Operations that can hit a Rust panic path
(`next`, `previous` via underflow; `enter` via out-of-bounds indexing)
return `Option`.
-/

namespace Tmenu

/-- Unicode `White_Space` characters, as used by Rust's `str::trim` /
`trim_start` (`char::is_whitespace`). -/
def isRustWhitespace (c : Char) : Bool :=
  c = ' ' || c = '\t' || c = '\n' || c = '\u000B' || c = '\u000C' || c = '\r' ||
  c = '\u0085' || c = ' ' || c = ' ' ||
  c = ' ' || c = ' ' || c = ' ' || c = ' ' || c = ' ' ||
  c = ' ' || c = ' ' || c = ' ' || c = ' ' || c = ' ' ||
  c = ' ' || c = ' ' || c = ' ' || c = ' ' || c = ' ' ||
  c = '　'

/-- Rust `str::trim`: remove leading and trailing whitespace. -/
def rustTrim (l : List Char) : List Char :=
  ((l.dropWhile isRustWhitespace).reverse.dropWhile isRustWhitespace).reverse

/-- Rust `str::trim_matches(c)`: repeatedly remove `c` from both ends. -/
def trimMatches (c : Char) (l : List Char) : List Char :=
  ((l.dropWhile (fun d => d = c)).reverse.dropWhile (fun d => d = c)).reverse

/-- `line.len() - line.trim_start().len()`: the number of leading whitespace
characters. -/
def indentOf (line : List Char) : Nat :=
  line.length - (line.dropWhile isRustWhitespace).length

/-- Split a character list at every `'\n'`; always returns at least one
piece. -/
def splitNl : List Char → List (List Char)
  | [] => [[]]
  | '\n' :: rest => [] :: splitNl rest
  | c :: rest =>
    match splitNl rest with
    | [] => [[c]]
    | p :: ps => (c :: p) :: ps

/-- Remove one trailing `'\r'` (for lines terminated by `"\r\n"`). -/
def stripCR (l : List Char) : List Char :=
  if l.getLast? = some '\r' then l.dropLast else l

/-- Rust `str::lines()`: split at `'\n'`, strip a `'\r'` before each `'\n'`,
and drop a final empty piece (the optional final line terminator).  A bare
trailing `'\r'` not followed by `'\n'` is kept, as in Rust. -/
def rustLines (s : List Char) : List (List Char) :=
  let ps := splitNl s
  (ps.dropLast.map stripCR) ++
    (match ps.getLast? with
     | some [] => []
     | some l => [l]
     | none => [])

/-- Rust `str::split("]:")`: the pieces of the string between non-overlapping
left-to-right occurrences of the two-character pattern `"]:"`.  Never returns
the empty list. -/
def splitBracketColon : List Char → List (List Char)
  | [] => [[]]
  | [c] => [[c]]
  | c :: d :: rest =>
    if c = ']' ∧ d = ':' then
      [] :: splitBracketColon rest
    else
      match splitBracketColon (d :: rest) with
      | [] => [[c], []]
      | p :: ps => (c :: p) :: ps

/-- Whether the two-character pattern `"]:"` occurs in the list. -/
def hasBC : List Char → Bool
  | [] => false
  | [_] => false
  | c :: d :: rest => if c = ']' ∧ d = ':' then true else hasBC (d :: rest)

/-- The characters strictly before the first occurrence of `"]:"` (the whole
list if there is none). -/
def takeBeforeBC : List Char → List Char
  | [] => []
  | [c] => [c]
  | c :: d :: rest =>
    if c = ']' ∧ d = ':' then [] else c :: takeBeforeBC (d :: rest)

mutual
/-- Rust `enum MenuAction`. -/
inductive MenuAction : Type where
  | Execute (cmd : List Char) : MenuAction
  | OpenSubmenu (items : List MenuItem) : MenuAction

/-- Rust `struct MenuItem { label, action }`. -/
inductive MenuItem : Type where
  | mk (label : List Char) (action : MenuAction) : MenuItem
end

/-- Projection: the `label` field of `MenuItem`. -/
def MenuItem.label : MenuItem → List Char
  | .mk l _ => l

/-- Projection: the `action` field of `MenuItem`. -/
def MenuItem.action : MenuItem → MenuAction
  | .mk _ a => a

/-- Whether an item's action is `OpenSubmenu`. -/
def isSubmenuItem : MenuItem → Bool
  | .mk _ (.OpenSubmenu _) => true
  | .mk _ (.Execute _) => false

/-- The number of `OpenSubmenu` items in a list. -/
def countSubmenuItems (l : List MenuItem) : Nat :=
  (l.filter isSubmenuItem).length

/-- Rust `struct App`.  `state` models `ListState` by its `selected()` value;
the history stack is a list with the most recently pushed level at the head
(the Rust `Vec` pushes and pops at its end). -/
structure App : Type where
  history : List (List Char × List MenuItem × Option Nat)
  current_title : List Char
  current_items : List MenuItem
  state : Option Nat

/-- The accumulator of the `for line in content.lines()` loop of
`App::from_toon`. -/
structure ParseState : Type where
  root_items : List MenuItem
  current_submenu : Option (List Char × List MenuItem)
  main_title : List Char
  first_key_found : Bool

/-- The loop accumulator at the start of `App::from_toon`. -/
def initParseState : ParseState :=
  { root_items := []
  , current_submenu := none
  , main_title := "Menu Principal".data
  , first_key_found := false }

/-- The item built from an item line (a line containing `'['`) by
`App::from_toon`: `parts = trimmed.split("]:")`, the label is
`parts[0].split('[').next()` with quotes stripped, the command is
`parts.get(1).unwrap_or("")` trimmed. -/
def itemOfLine (trimmed : List Char) : MenuItem :=
  let parts := splitBracketColon trimmed
  let label := trimMatches '"' ((parts.headD []).takeWhile (fun c => c ≠ '['))
  let action_str := rustTrim ((parts.get? 1).getD [])
  MenuItem.mk label (MenuAction.Execute action_str)

/-- One iteration of the `for line in content.lines()` loop of
`App::from_toon`. -/
def parseLine (st : ParseState) (line : List Char) : ParseState :=
  let trimmed := rustTrim line
  if trimmed = [] then st
  else
    let indent := indentOf line
    if trimmed.getLast? = some ':' ∧ indent = 0 then
      if st.first_key_found then st
      else
        { st with
          main_title := trimMatches '"' (trimMatches ':' trimmed)
          first_key_found := true }
    else if trimmed.getLast? = some ':' ∧ indent > 0 then
      { st with
        current_submenu := some (trimMatches '"' (trimMatches ':' trimmed), []) }
    else if trimmed.contains '[' then
      let item := itemOfLine trimmed
      if indent > 2 then
        match st.current_submenu with
        | some (name, sub) =>
          { st with current_submenu := some (name, sub ++ [item]) }
        | none => st
      else
        { st with root_items := st.root_items ++ [item] }
    else st

/-- `App::from_toon` on file content (the `fs::read_to_string` I/O layer is
outside the core): fold the loop over the lines, append a still-open submenu
to the root items, and select index 0. -/
def appFromToon (content : List Char) : App :=
  let fin := (rustLines content).foldl parseLine initParseState
  let root_items :=
    match fin.current_submenu with
    | some (name, sub_items) =>
      fin.root_items ++ [MenuItem.mk name (MenuAction.OpenSubmenu sub_items)]
    | none => fin.root_items
  { history := []
  , current_title := fin.main_title
  , current_items := root_items
  , state := some 0 }

/-- `App::next`.  With `selected == Some(i)` and an empty item list, the Rust
code evaluates `self.current_items.len() - 1 = 0usize - 1`, an arithmetic
underflow (a panic under overflow checks); that path is `none`. -/
def appNext (app : App) : Option App :=
  match app.state with
  | none => some { app with state := some 0 }
  | some i =>
    if app.current_items.length = 0 then none
    else
      some { app with
             state := some (if i ≥ app.current_items.length - 1 then 0 else i + 1) }

/-- `App::previous`.  Same underflow path as `App::next` when `i == 0` and the
item list is empty. -/
def appPrevious (app : App) : Option App :=
  match app.state with
  | none => some { app with state := some 0 }
  | some i =>
    if i = 0 then
      if app.current_items.length = 0 then none
      else some { app with state := some (app.current_items.length - 1) }
    else some { app with state := some (i - 1) }

/-- The observable outcome of `App::enter`: its `bool` result is
`true` exactly for `Quit`; `RunCommand` carries the string passed to
`execute_external_command` (the trimmed, quote-stripped command). -/
inductive EnterResult : Type where
  | Quit : EnterResult
  | RunCommand (cmd : List Char) : EnterResult
  | Descended : EnterResult
  | NoSelection : EnterResult
deriving DecidableEq

/-- `App::enter`.  `self.current_items[index]` with an out-of-bounds index is
a Rust panic, modelled as `none`. -/
def appEnter (app : App) : Option (App × EnterResult) :=
  match app.state with
  | none => some (app, EnterResult.NoSelection)
  | some index =>
    match app.current_items[index]? with
    | none => none
    | some item =>
      match item.action with
      | MenuAction.Execute cmd_str =>
        let clean_cmd := trimMatches '"' (rustTrim cmd_str)
        if clean_cmd = "exit".data then some (app, EnterResult.Quit)
        else some (app, EnterResult.RunCommand clean_cmd)
      | MenuAction.OpenSubmenu sub_items =>
        some ({ history := (app.current_title, app.current_items, app.state) :: app.history
              , current_title := item.label
              , current_items := sub_items
              , state := some 0 }, EnterResult.Descended)

/-- `App::back`: pop the history stack if non-empty, else do nothing. -/
def appBack (app : App) : App :=
  match app.history with
  | [] => app
  | (title, items, st) :: rest =>
    { history := rest
    , current_title := title
    , current_items := items
    , state := st }

/-- `k` successive calls of `App::next`, failing if any call hits the
underflow path. -/
def appNextIter : Nat → App → Option App
  | 0, a => some a
  | Nat.succ n, a =>
    match appNext a with
    | none => none
    | some b => appNextIter n b

/-- The per-level selection property: the selection is always `Some`;
`Some 0` when the item list is empty, and a valid index otherwise. -/
def LevelInv (items : List MenuItem) (st : Option Nat) : Prop :=
  ∃ k, st = some k ∧ (items = [] → k = 0) ∧ (items ≠ [] → k < items.length)

/-- `LevelInv` for the current level and every level on the history stack. -/
def AppInv (app : App) : Prop :=
  LevelInv app.current_items app.state ∧
  ∀ e ∈ app.history, LevelInv e.2.1 e.2.2

/-- The states reachable from `a` by the navigation operations, along
non-panicking executions. -/
inductive Reaches : App → App → Prop where
  | refl (a : App) : Reaches a a
  | next {a b c : App} : Reaches a b → appNext b = some c → Reaches a c
  | prev {a b c : App} : Reaches a b → appPrevious b = some c → Reaches a c
  | enter {a b c : App} {r : EnterResult} :
      Reaches a b → appEnter b = some (c, r) → Reaches a c
  | back {a b : App} : Reaches a b → Reaches a (appBack b)

/-- The example menu text of the specification (§8). -/
def exampleText : List Char :=
  ("main:\n  \"Tools\":\n    \"Build\"[1]: echo build\n    \"Clean\"[2]: echo clean\n  \"Quit\"[0]: exit").data

/-- What `App::from_toon` actually produces on `exampleText`: the `Quit`
item first (pushed during the loop), the `Tools` submenu appended at end of
input. -/
def exampleExpected : App :=
  App.mk [] "main".data
    [ MenuItem.mk "Quit".data (MenuAction.Execute "exit".data)
    , MenuItem.mk "Tools".data (MenuAction.OpenSubmenu
        [ MenuItem.mk "Build".data (MenuAction.Execute "echo build".data)
        , MenuItem.mk "Clean".data (MenuAction.Execute "echo clean".data) ]) ]
    (some 0)

/-- The root item list that the specification's §8 example claims
(submenu first, then the `Quit` item). -/
def exampleClaimedItems : List MenuItem :=
  [ MenuItem.mk "Tools".data (MenuAction.OpenSubmenu
      [ MenuItem.mk "Build".data (MenuAction.Execute "echo build".data)
      , MenuItem.mk "Clean".data (MenuAction.Execute "echo clean".data) ])
  , MenuItem.mk "Quit".data (MenuAction.Execute "exit".data) ]

/-- A menu text whose item line contains `"]:"` twice. -/
def c5Text : List Char := ("t:\n\"A\"[1]: echo ]: tail").data

/-- A state whose selected item's command carries surrounding quotes. -/
def app6 : App :=
  App.mk [] "t".data
    [MenuItem.mk "L".data (MenuAction.Execute ("\"ls\"").data)] (some 0)

/-- A state whose selected item's command trims and quote-strips to
`exit`. -/
def app6q : App :=
  App.mk [] "t".data
    [MenuItem.mk "Q".data (MenuAction.Execute (" \"exit\" ").data)] (some 0)

/-- A state selecting a submenu item, for the descent/ascent round trip. -/
def app4 : App :=
  App.mk [] "root".data
    [MenuItem.mk "Sub".data (MenuAction.OpenSubmenu
      [MenuItem.mk "X".data (MenuAction.Execute "echo x".data)])] (some 0)

/-- A two-item level with the second item selected. -/
def app7 : App :=
  App.mk [] "m".data
    [ MenuItem.mk "a".data (MenuAction.Execute "x".data)
    , MenuItem.mk "b".data (MenuAction.Execute "y".data) ] (some 1)

/-- A root-level state (empty history). -/
def app8 : App :=
  App.mk [] "m".data [MenuItem.mk "a".data (MenuAction.Execute "x".data)] (some 0)

/-- A parse state that has already consumed a first top-level key. -/
def st9 : ParseState :=
  ParseState.mk [MenuItem.mk "a".data (MenuAction.Execute "x".data)] none "m".data true

/-- `split` on a string always yields at least one piece. -/
theorem splitBracketColon_ne_nil (l : List Char) : splitBracketColon l ≠ [] := by
  rcases l with _ | ⟨c, _ | ⟨d, rest⟩⟩
  · simp [splitBracketColon]
  · simp [splitBracketColon]
  · simp only [splitBracketColon]
    split
    · simp
    · cases h : splitBracketColon (d :: rest) <;> simp

/-- Splitting at `"]:"` peels off a prefix that contains no occurrence of the
pattern: the first piece is that prefix. -/
theorem splitBracketColon_append (pre rest : List Char) (h : hasBC pre = false) :
    splitBracketColon (pre ++ ']' :: ':' :: rest) = pre :: splitBracketColon rest := by
  induction pre with
  | nil => simp [splitBracketColon]
  | cons c pre' ih =>
    cases pre' with
    | nil =>
      simp [splitBracketColon]
    | cons d pre2 =>
      by_cases hcd : (c = ']' ∧ d = ':')
      · obtain ⟨h1, h2⟩ := hcd
        subst h1; subst h2
        simp [hasBC] at h
      · have h2 : hasBC (d :: pre2) = false := by
          simp only [hasBC] at h
          rwa [if_neg hcd] at h
        have ih2 := ih h2
        simp only [List.cons_append] at ih2 ⊢
        simp only [splitBracketColon]
        rw [if_neg hcd, ih2]

/-- The first piece of the split is the text before the first `"]:"`. -/
theorem splitBracketColon_headD (l : List Char) :
    (splitBracketColon l).headD [] = takeBeforeBC l := by
  induction l with
  | nil => rfl
  | cons c l' ih =>
    cases l' with
    | nil => rfl
    | cons d rest =>
      by_cases hcd : (c = ']' ∧ d = ':')
      · simp [splitBracketColon, takeBeforeBC, hcd]
      · simp only [splitBracketColon, takeBeforeBC, if_neg hcd]
        rcases hsp : splitBracketColon (d :: rest) with _ | ⟨p, ps⟩
        · exact absurd hsp (splitBracketColon_ne_nil _)
        · rw [hsp] at ih
          simp only [List.headD_cons] at ih ⊢
          rw [ih]

/-- Iterating `App::next` `k` times on a valid selection advances the
selection by `k` modulo the item count. -/
theorem appNextIter_mod (k : Nat) :
    ∀ (hist : List (List Char × List MenuItem × Option Nat)) (t : List Char)
      (its : List MenuItem) (i : Nat), i < its.length →
      appNextIter k (App.mk hist t its (some i)) =
        some (App.mk hist t its (some ((i + k) % its.length))) := by
  induction k with
  | zero =>
    intro hist t its i hlt
    simp [appNextIter, Nat.mod_eq_of_lt hlt]
  | succ n ih =>
    intro hist t its i hlt
    have hlen : its.length ≠ 0 := by omega
    have hstep : appNext (App.mk hist t its (some i)) =
        some (App.mk hist t its (some ((i + 1) % its.length))) := by
      simp only [appNext]
      rw [if_neg hlen]
      congr 3
      by_cases hge : i ≥ its.length - 1
      · have h1 : i + 1 = its.length := by omega
        rw [if_pos hge, h1, Nat.mod_self]
      · rw [if_neg hge, Nat.mod_eq_of_lt (by omega)]
    rw [appNextIter, hstep]
    show appNextIter n (App.mk hist t its (some ((i + 1) % its.length))) = _
    rw [ih hist t its _ (Nat.mod_lt _ (Nat.pos_of_ne_zero hlen))]
    congr 3
    rw [Nat.mod_add_mod]
    congr 1
    omega

/-- Selecting index 0 satisfies the per-level property for any item list. -/
theorem levelInv_some_zero (items : List MenuItem) : LevelInv items (some 0) := by
  refine ⟨0, rfl, fun _ => rfl, fun hne => ?_⟩
  cases items with
  | nil => exact absurd rfl hne
  | cons a l => simp

/-- `App::from_toon` establishes the selection property. -/
theorem appInv_fromToon (content : List Char) : AppInv (appFromToon content) := by
  refine ⟨levelInv_some_zero _, ?_⟩
  intro e he
  rw [show (appFromToon content).history = [] from rfl] at he
  cases he

/-- `App::next` preserves the selection property. -/
theorem appInv_next {a b : App} (h : AppInv a) (hn : appNext a = some b) : AppInv b := by
  obtain ⟨⟨k, hst, hemp, hne⟩, hhist⟩ := h
  obtain ⟨hist, t, its, st⟩ := a
  have hst' : st = some k := hst
  subst hst'
  by_cases hlen : its.length = 0
  · simp [appNext, hlen] at hn
  · simp only [appNext] at hn
    rw [if_neg hlen] at hn
    have hits : its ≠ [] := by
      intro h0
      subst h0
      exact hlen rfl
    have hk : k < its.length := hne hits
    obtain rfl : App.mk hist t its
        (some (if k ≥ its.length - 1 then 0 else k + 1)) = b := by
      exact Option.some.inj hn
    refine ⟨⟨if k ≥ its.length - 1 then 0 else k + 1, rfl, ?_, ?_⟩, hhist⟩
    · intro h0
      subst h0
      exact absurd rfl hits
    · intro _
      dsimp only
      split <;> omega

/-- `App::previous` preserves the selection property. -/
theorem appInv_previous {a b : App} (h : AppInv a) (hn : appPrevious a = some b) :
    AppInv b := by
  obtain ⟨⟨k, hst, hemp, hne⟩, hhist⟩ := h
  obtain ⟨hist, t, its, st⟩ := a
  have hst' : st = some k := hst
  subst hst'
  simp only [appPrevious] at hn
  by_cases hk0 : k = 0
  · rw [if_pos hk0] at hn
    by_cases hlen : its.length = 0
    · rw [if_pos hlen] at hn
      cases hn
    · rw [if_neg hlen] at hn
      obtain rfl : App.mk hist t its (some (its.length - 1)) = b :=
        Option.some.inj hn
      refine ⟨⟨its.length - 1, rfl, ?_, ?_⟩, hhist⟩
      · intro h0
        subst h0
        simp
      · intro _
        dsimp only
        omega
  · rw [if_neg hk0] at hn
    obtain rfl : App.mk hist t its (some (k - 1)) = b := Option.some.inj hn
    have hits : its ≠ [] := by
      intro h0
      subst h0
      exact hk0 (hemp rfl)
    have hk : k < its.length := hne hits
    refine ⟨⟨k - 1, rfl, ?_, ?_⟩, hhist⟩
    · intro h0
      exact absurd h0 hits
    · intro _
      dsimp only
      omega

/-- `App::enter` preserves the selection property. -/
theorem appInv_enter {a b : App} {r : EnterResult} (h : AppInv a)
    (he : appEnter a = some (b, r)) : AppInv b := by
  obtain ⟨⟨k, hst, hemp, hne⟩, hhist⟩ := h
  obtain ⟨hist, t, its, st⟩ := a
  have hst' : st = some k := hst
  subst hst'
  simp only [appEnter] at he
  rcases hg : its[k]? with _ | ⟨l, act⟩
  · rw [hg] at he
    cases he
  · rw [hg] at he
    cases act with
    | Execute cmd =>
      simp only [MenuItem.action] at he
      split at he <;>
        · obtain ⟨rfl, rfl⟩ : App.mk hist t its (some k) = b ∧ _ = r :=
            Prod.mk.injEq .. ▸ Option.some.inj he
          exact ⟨⟨k, rfl, hemp, hne⟩, hhist⟩
    | OpenSubmenu sub =>
      simp only [MenuItem.action, MenuItem.label] at he
      obtain ⟨rfl, rfl⟩ :
          App.mk ((t, its, some k) :: hist) l sub (some 0) = b ∧
            EnterResult.Descended = r :=
        Prod.mk.injEq .. ▸ Option.some.inj he
      refine ⟨levelInv_some_zero _, ?_⟩
      intro e he2
      rcases List.mem_cons.mp he2 with rfl | he3
      · exact ⟨k, rfl, hemp, hne⟩
      · exact hhist e he3

/-- `App::back` preserves the selection property. -/
theorem appInv_back {a : App} (h : AppInv a) : AppInv (appBack a) := by
  obtain ⟨hcur, hhist⟩ := h
  obtain ⟨hist, t, its, st⟩ := a
  cases hist with
  | nil => exact ⟨hcur, hhist⟩
  | cons e rest =>
    obtain ⟨t2, its2, st2⟩ := e
    refine ⟨hhist _ (List.mem_cons_self _ _), ?_⟩
    intro e2 he2
    exact hhist e2 (List.mem_cons_of_mem _ he2)

/-- The selection property is preserved along every reachable execution. -/
theorem appInv_reaches {a b : App} (ha : AppInv a) (h : Reaches a b) : AppInv b := by
  induction h with
  | refl => exact ha
  | next _ hn ih => exact appInv_next ih hn
  | prev _ hn ih => exact appInv_previous ih hn
  | enter _ hn ih => exact appInv_enter ih hn
  | back _ ih => exact appInv_back ih

/-- The item built from an item line is always an `Execute` item. -/
theorem isSubmenuItem_itemOfLine (t : List Char) :
    isSubmenuItem (itemOfLine t) = false := rfl

/-- One parser-loop step either leaves the root items alone or appends the
line's `Execute` item. -/
theorem parseLine_root_items (st : ParseState) (line : List Char) :
    (parseLine st line).root_items = st.root_items ∨
    (parseLine st line).root_items =
      st.root_items ++ [itemOfLine (rustTrim line)] := by
  simp only [parseLine]
  split_ifs <;>
    first
      | (left; rfl)
      | (right; rfl)
      | (rcases st.current_submenu with _ | ⟨name, sub⟩ <;> (left; rfl))

/-- All items pushed to the root by the parser loop are `Execute` items. -/
theorem foldl_parseLine_root_execute (lines : List (List Char)) :
    ∀ (st : ParseState), (∀ it ∈ st.root_items, isSubmenuItem it = false) →
    ∀ it ∈ (lines.foldl parseLine st).root_items, isSubmenuItem it = false := by
  induction lines with
  | nil => exact fun st h => h
  | cons l ls ih =>
    intro st h
    apply ih
    intro it hit
    rcases parseLine_root_items st l with he | he
    · rw [he] at hit
      exact h it hit
    · rw [he] at hit
      rcases List.mem_append.mp hit with h1 | h2
      · exact h it h1
      · rw [List.mem_singleton.mp h2]
        exact isSubmenuItem_itemOfLine _


/-- All items accumulated into `root_items` before the end-of-input
finalization are `Execute` items, so only the final position of the parsed
root can hold an `OpenSubmenu` item. -/
theorem fromToon_dropLast_execute (content : List Char) :
    ∀ it ∈ (appFromToon content).current_items.dropLast, isSubmenuItem it = false := by
  have hall := foldl_parseLine_root_execute (rustLines content) initParseState
    (by intro it hit; cases hit)
  intro it hit
  simp only [appFromToon] at hit
  rcases hsub : ((rustLines content).foldl parseLine initParseState).current_submenu
    with _ | ⟨name, sub⟩
  · rw [hsub] at hit
    exact hall it ((List.dropLast_sublist _).subset hit)
  · rw [hsub, List.dropLast_concat] at hit
    exact hall it hit

/-- The parsed root item list contains at most one `OpenSubmenu` item. -/
theorem fromToon_count_le_one (content : List Char) :
    countSubmenuItems (appFromToon content).current_items ≤ 1 := by
  have hall := foldl_parseLine_root_execute (rustLines content) initParseState
    (by intro it hit; cases hit)
  have hfil : ((rustLines content).foldl parseLine initParseState).root_items.filter
      isSubmenuItem = [] := by
    rw [List.filter_eq_nil_iff]
    intro a ha
    rw [hall a ha]
    simp
  simp only [appFromToon, countSubmenuItems]
  rcases hsub : ((rustLines content).foldl parseLine initParseState).current_submenu
    with _ | ⟨name, sub⟩
  · dsimp only
    rw [hfil]
    simp
  · dsimp only
    rw [List.filter_append, hfil]
    simp [List.filter, isSubmenuItem]

/-- A submenu-header line (trimmed text ending in `':'`, positive
indentation) replaces the open submenu with a fresh empty one and leaves the
root items untouched: items accumulated in a previously open submenu are
dropped. -/
theorem parseLine_submenu_header (st : ParseState) (line : List Char)
    (hcolon : (rustTrim line).getLast? = some ':') (hind : indentOf line > 0) :
    parseLine st line =
      { st with
          current_submenu :=
            some (trimMatches '"' (trimMatches ':' (rustTrim line)), []) } := by
  have hne : rustTrim line ≠ [] := by
    intro h0
    rw [h0] at hcolon
    cases hcolon
  simp only [parseLine]
  rw [if_neg hne, if_neg (by rintro ⟨-, h0⟩; omega), if_pos ⟨hcolon, hind⟩]

/-- Claim C1 (amended): parsing the example text yields title `main`, and
the root items in the order `[Execute("exit") labelled "Quit",
OpenSubmenu("Tools", [Execute("echo build"), Execute("echo clean")])]` —
the still-open submenu is appended only at end of input, after the root-level
`Quit` item that was pushed during the loop. -/
theorem c1_amended_parse_example : appFromToon exampleText = exampleExpected := rfl

/-- Claim C1 counterexample: on the example text the parsed root items are
not `[OpenSubmenu("Tools", …), Execute("exit")]` in that order, contrary to
the claim. -/
theorem c1_counterexample :
    (appFromToon exampleText).current_items ≠ exampleClaimedItems := by
  intro h
  have h2 := congrArg (List.map MenuItem.label) h
  exact absurd h2 (by decide)

/-- Claim C2 (amended): for every level ever produced or reached —
the parsed root and every level created by descending, including all levels
saved on the history stack — `selected_index` is always `Some`; it is a
valid index in `[0, len(items))` whenever the item list is non-empty, and it
is `Some 0` (not `None`, as the claim states) when the item list is empty. -/
theorem c2_amended_selection_always_some (content : List Char) (app : App)
    (h : Reaches (appFromToon content) app) : AppInv app :=
  appInv_reaches (appInv_fromToon content) h

/-- Claim C2 witness: the invariant holds at the parsed example menu. -/
theorem c2_witness : AppInv (appFromToon exampleText) :=
  c2_amended_selection_always_some exampleText (appFromToon exampleText)
    (Reaches.refl _)

/-- Claim C2 counterexample: parsing empty input yields an empty root item
list whose `selected_index` is `Some 0`, not `None` as the claim requires. -/
theorem c2_counterexample :
    (appFromToon []).current_items = [] ∧ (appFromToon []).state = some 0 ∧
    some 0 ≠ (none : Option Nat) :=
  ⟨rfl, rfl, by decide⟩

/-- Claim C3: on the reachable state parsed from empty input (empty item
list, selection `Some 0`), `App::next` and `App::previous` evaluate
`current_items.len() - 1` with `len() == 0`, a usize underflow (panic under
overflow checks) — not the no-op the claim requires. -/
theorem c3_empty_menu_navigation_underflow :
    (appFromToon []).current_items = [] ∧ (appFromToon []).state = some 0 ∧
    appNext (appFromToon []) = none ∧ appPrevious (appFromToon []) = none :=
  ⟨rfl, rfl, rfl, rfl⟩

/-- Claim C4: activating a selected `OpenSubmenu` item succeeds with
`Descended`, and immediately ascending restores the exact pre-descent
navigation state (title, items, selection, history). -/
theorem c4_enter_back_roundtrip (app : App) (i : Nat) (label : List Char)
    (sub : List MenuItem) (hst : app.state = some i)
    (hit : app.current_items[i]? =
      some (MenuItem.mk label (MenuAction.OpenSubmenu sub))) :
    Option.map (fun p => (appBack p.1, p.2)) (appEnter app) =
      some (app, EnterResult.Descended) := by
  obtain ⟨hist, t, its, st⟩ := app
  have hst' : st = some i := hst
  subst hst'
  dsimp only at hit
  simp [appEnter, hit, appBack, MenuItem.action, MenuItem.label]

/-- Claim C4 witness: the round trip at a concrete one-submenu state. -/
theorem c4_witness :
    Option.map (fun p => (appBack p.1, p.2)) (appEnter app4) =
      some (app4, EnterResult.Descended) :=
  c4_enter_back_roundtrip app4 0 "Sub".data
    [MenuItem.mk "X".data (MenuAction.Execute "echo x".data)] rfl rfl

/-- Claim C5 (amended): the parser splits an item line at the *first*
occurrence of `"]:"`: writing the trimmed line as `pre ++ "]:" ++ rest`
with no occurrence of `"]:"` in `pre`, the label is the portion of `pre`
before the first `'['` with quotes stripped, and the command is the portion
of `rest` before the next `"]:"` (or all of `rest`), trimmed. -/
theorem c5_amended_item_first_split (pre rest : List Char)
    (h : hasBC pre = false) :
    itemOfLine (pre ++ ']' :: ':' :: rest) =
      MenuItem.mk (trimMatches '"' (pre.takeWhile (fun c => c ≠ '[')))
        (MenuAction.Execute (rustTrim (takeBeforeBC rest))) := by
  simp only [itemOfLine, splitBracketColon_append pre rest h]
  rcases hsp : splitBracketColon rest with _ | ⟨p, ps⟩
  · exact absurd hsp (splitBracketColon_ne_nil _)
  · have hp : p = takeBeforeBC rest := by
      have h2 := splitBracketColon_headD rest
      rw [hsp] at h2
      simpa using h2
    simp [hsp, hp]

/-- Claim C5 counterexample: on the line `"A"[1]: echo ]: tail`, containing
`"]:"` twice, the parsed command is `echo` (the text after the *first*
`"]:"`, up to the second), not `tail` (the text after the last `"]:"`) as
the claim requires. -/
theorem c5_counterexample :
    (appFromToon c5Text).current_items =
      [MenuItem.mk "A".data (MenuAction.Execute "echo".data)] ∧
    "echo".data ≠ "tail".data :=
  ⟨rfl, by decide⟩

/-- Claim C5 witness: the first-split characterization at the concrete
double-`"]:"` line. -/
theorem c5_witness :
    itemOfLine (("\"A\"[1").data ++ ']' :: ':' :: (" echo ]: tail").data) =
      MenuItem.mk "A".data (MenuAction.Execute "echo".data) := by
  rw [c5_amended_item_first_split _ _ (by decide)]
  rfl

/-- Claim C6 (amended): activating a selected `Execute(cmd)` item yields
`Quit` exactly when `cmd` trimmed of whitespace and of leading/trailing
double-quote characters equals `exit`; otherwise it yields `RunCommand`
carrying the *trimmed, quote-stripped* command (the string the code hands to
the shell), not the raw stored command string. -/
theorem c6_amended_dispatch (app : App) (i : Nat) (label cmd : List Char)
    (hst : app.state = some i)
    (hit : app.current_items[i]? =
      some (MenuItem.mk label (MenuAction.Execute cmd))) :
    (trimMatches '"' (rustTrim cmd) = "exit".data →
        appEnter app = some (app, EnterResult.Quit)) ∧
    (trimMatches '"' (rustTrim cmd) ≠ "exit".data →
        appEnter app =
          some (app, EnterResult.RunCommand (trimMatches '"' (rustTrim cmd)))) := by
  obtain ⟨hist, t, its, st⟩ := app
  have hst' : st = some i := hst
  subst hst'
  dsimp only at hit
  constructor <;> intro hc <;> simp [appEnter, hit, MenuItem.action, hc]

/-- Claim C6 counterexample: a selected `Execute("\"ls\"")` item dispatches
`RunCommand("ls")` — the quote-stripped string — not `RunCommand` of the
stored command string `"ls"` (with quotes), so "RunCommand with that
command" fails as stated. -/
theorem c6_counterexample :
    appEnter app6 = some (app6, EnterResult.RunCommand "ls".data) ∧
    EnterResult.RunCommand "ls".data ≠
      EnterResult.RunCommand ("\"ls\"").data :=
  ⟨rfl, by decide⟩

/-- Claim C6 witness: a command trimming to `exit` (with quotes and spaces)
yields `Quit`. -/
theorem c6_witness :
    appEnter app6q = some (app6q, EnterResult.Quit) :=
  (c6_amended_dispatch app6q 0 "Q".data (" \"exit\" ").data rfl rfl).1 (by decide)

/-- Claim C7: with a non-empty item list of length `n` and a valid selected
index, `n` successive `App::next` calls return the selection to its original
value. -/
theorem c7_next_cyclic (app : App) (i : Nat)
    (hst : app.state = some i) (hlt : i < app.current_items.length) :
    appNextIter app.current_items.length app = some app := by
  obtain ⟨hist, t, its, st⟩ := app
  have hst' : st = some i := hst
  subst hst'
  have hlt' : i < its.length := hlt
  have h := appNextIter_mod its.length hist t its i hlt'
  rw [show (i + its.length) % its.length = i from by
    rw [Nat.add_mod_right, Nat.mod_eq_of_lt hlt']] at h
  exact h

/-- Claim C7 witness: two `next` steps on a two-item level restore the
selection. -/
theorem c7_witness : appNextIter app7.current_items.length app7 = some app7 :=
  c7_next_cyclic app7 1 rfl (by decide)

/-- Claim C8: with an empty history stack (root level), `App::back` is a
total no-op: it cannot fail and leaves the whole navigation state
unchanged. -/
theorem c8_back_root_noop (app : App) (h : app.history = []) :
    appBack app = app := by
  obtain ⟨hist, t, its, st⟩ := app
  have h' : hist = [] := h
  subst h'
  rfl

/-- Claim C8 witness: `back` at a concrete root-level state. -/
theorem c8_witness : appBack app8 = app8 :=
  c8_back_root_noop app8 rfl

/-- Claim C9: a zero-indentation line whose trimmed text ends in `':'` sets
the title (colon and quotes stripped) only if no such line was seen before;
when one was, the line is ignored entirely — the parse state (title, root
items, open submenu) is unchanged. -/
theorem c9_first_title_only (st : ParseState) (line : List Char)
    (hcolon : (rustTrim line).getLast? = some ':') (hind : indentOf line = 0) :
    (st.first_key_found = true → parseLine st line = st) ∧
    (st.first_key_found = false →
      parseLine st line =
        { st with
          main_title := trimMatches '"' (trimMatches ':' (rustTrim line))
          first_key_found := true }) := by
  have hne : rustTrim line ≠ [] := by
    intro h0
    rw [h0] at hcolon
    cases hcolon
  constructor <;> intro hf <;>
    simp [parseLine, hne, hcolon, hind, hf]

/-- Claim C9 witness: a later top-level `key:` line leaves a parse state
with the title already set completely unchanged. -/
theorem c9_witness : parseLine st9 ("later:").data = st9 :=
  (c9_first_title_only st9 ("later:").data rfl rfl).1 rfl

/-- Claim C10: at most one `OpenSubmenu` item appears among the parsed root
items and only in the last position (every earlier root item is an
`Execute` item); and a new submenu-header line replaces the previously open
submenu block wholesale — its accumulated items are discarded, the root
items untouched — so only the block still open at end of input is appended,
at the end of the root item sequence. -/
theorem c10_single_submenu :
    (∀ (content : List Char),
        ∀ it ∈ (appFromToon content).current_items.dropLast,
          isSubmenuItem it = false) ∧
    (∀ (content : List Char),
        countSubmenuItems (appFromToon content).current_items ≤ 1) ∧
    (∀ (st : ParseState) (line : List Char),
        (rustTrim line).getLast? = some ':' → indentOf line > 0 →
        parseLine st line =
          { st with
              current_submenu :=
                some (trimMatches '"' (trimMatches ':' (rustTrim line)), []) }) :=
  ⟨fromToon_dropLast_execute, fromToon_count_le_one, parseLine_submenu_header⟩

/-- Claim C10 witness: the submenu count on the parsed example, and a
concrete submenu-header step discarding the open submenu. -/
theorem c10_witness :
    countSubmenuItems (appFromToon exampleText).current_items ≤ 1 ∧
    parseLine st9 ("  \"Sub\":").data =
      { st9 with current_submenu := some ("Sub".data, [])
      } := by
  refine ⟨c10_single_submenu.2.1 exampleText, ?_⟩
  have h := c10_single_submenu.2.2 st9 ("  \"Sub\":").data (by decide) (by decide)
  rw [h]
  rfl

end Tmenu
